import Mathlib

/- Verification development for the hveto core algorithms
   (`src/hveto/core.py`): coincidence search, Poisson significance,
   winner selection and the segment-based veto engine.

   Modelling conventions:
   * event times, SNR values, window widths and segment endpoints are
     rationals (the Python code uses IEEE doubles; every claim checked
     here is about order/count behaviour, not rounding);
   * channel identifiers are strings;
   * the real-valued significance computation (scipy `gammainc`,
     `gammaln`, `math.log10`) is modelled over `ℝ` with exact
     mathematical semantics, and a Python exception (`ValueError` from
     `log10` on a non-positive argument, an uncaught `IndexError`, a
     propagated error) is modelled as `Option.none`;
   * Python dicts keyed by grid cells or channel names are modelled as
     total functions with default value 0 (the code only ever increments
     entries, so an absent key and a zero count are indistinguishable to
     every caller modelled here). -/

namespace Hveto

/-- An event (trigger): `{time, frequency, snr, channel}` as in the
tables consumed by `hveto.core` (`x['time']`, `x['snr']`, `x['channel']`). -/
structure Event where
  time : ℚ
  frequency : ℚ
  snr : ℚ
  channel : String
  deriving DecidableEq, Repr

/-- Comparison used by `table.sort('time')`: order events by time. -/
def timeLE (a b : Event) : Prop := a.time ≤ b.time

instance : DecidableRel timeLE := fun a b => inferInstanceAs (Decidable (a.time ≤ b.time))

instance : IsTotal Event timeLE := ⟨fun a b => le_total a.time b.time⟩

instance : IsTrans Event timeLE := ⟨fun _ _ _ h h2 => le_trans h h2⟩

/-- `table.sort('time')`: sort the event table by time (the sort key is
only the time column, so any time-sorted permutation is admissible; we
fix the stable insertion sort). -/
def sortByTime (l : List Event) : List Event := List.insertionSort timeLE l

/-- Ascending order on rationals, named so that `List.insertionSort` can
be given decidability/totality instances. -/
def leQ (a b : ℚ) : Prop := a ≤ b

/-- Descending order on rationals (used for `sorted(windows, reverse=True)`). -/
def geQ (a b : ℚ) : Prop := b ≤ a

instance : DecidableRel leQ := fun a b => inferInstanceAs (Decidable (a ≤ b))

instance : DecidableRel geQ := fun a b => inferInstanceAs (Decidable (b ≤ a))

instance : IsTotal ℚ leQ := ⟨fun a b => le_total a b⟩

instance : IsTrans ℚ leQ := ⟨fun _ _ _ h h2 => le_trans h h2⟩

instance : IsTotal ℚ geQ := ⟨fun a b => le_total b a⟩

instance : IsTrans ℚ geQ := ⟨fun _ _ _ h h2 => le_trans h2 h⟩

/-- A `(start, end)` segment. -/
abbrev Seg := ℚ × ℚ

/-- `ligo.segments.segment(a, b)` stores its endpoints in ascending
order (the constructor swaps a reversed pair), so a segment built from
a negative width still denotes a nonempty interval. -/
def segNorm (p : Seg) : Seg := (min p.1 p.2, max p.1 p.2)

/- ------------------------------------------------------------------
   `find_coincidences` (core.py lines 275-305)
   ------------------------------------------------------------------ -/

/-- Python `bisect.bisect_left(b, v)` for an ascending-sorted list `b`:
the index of the first element `≥ v`, i.e. the number of elements `< v`. -/
def bisect_left (b : List ℚ) (v : ℚ) : ℕ := b.countP (fun x => decide (x < v))

/-- Python `bisect.bisect_right(b, v)` for an ascending-sorted list `b`:
the index of the first element `> v`, i.e. the number of elements `≤ v`. -/
def bisect_right (b : List ℚ) (v : ℚ) : ℕ := b.countP (fun x => decide (x ≤ v))

/-- The local `_is_coincident(t)` closure of `find_coincidences`:
`x = bisect_left(b, t - dx); y = bisect_right(b, t + dx); return x != y`. -/
def is_coincident (b : List ℚ) (dx t : ℚ) : Bool :=
  bisect_left b (t - dx) != bisect_right b (t + dx)

/-- `find_coincidences(a, b, dt)`: the code fills a 0/1 array
`out[i] = _is_coincident(a[i])` and returns `out.nonzero()[0]`, i.e. the
ascending list of indices `i` of `a` whose flag is set. -/
def find_coincidences (a b : List ℚ) (dt : ℚ) : List ℕ :=
  (List.range a.length).filter (fun i => is_coincident b (dt / 2) (a.getD i 0))

/-- Modelled from the spec text of claim C2 (not from the source): the
positions `i` of `a` such that `b` contains an element of the
closed-open window `[a[i] - dt/2, a[i] + dt/2)`.  Used only to compare
the source behaviour against the claim. -/
def specHitPositions (a b : List ℚ) (dt : ℚ) : List ℕ :=
  (List.range a.length).filter (fun i =>
    b.any (fun x => decide (a.getD i 0 - dt / 2 ≤ x) && decide (x < a.getD i 0 + dt / 2)))

/- ------------------------------------------------------------------
   `find_all_coincidences` (core.py lines 91-152)

   Operational notes justifying the translation (checked against the
   Python 3 semantics of the source):
   * `add_if_coinc` returns `None` (falsy) exactly when the examined
     event belongs to the primary channel, so each of the two `while`
     loops walks away from the primary event and stops at the first
     primary-channel event (or the end of the table) - `reach` below;
   * `in_seg = filter(...)` binds a lazy `filter` object, which is
     always truthy in Python 3, so the `if not in_seg: return` branch
     (the intended stop-outside-the-widest-window early exit) is dead
     code: out-of-window events are examined, add nothing, and return 1;
   * each segment is built as `Segment(t - dt/2, t + dt/2)`, and the
     ligo.segments constructor orders the endpoints, so a negative
     width behaves as a `|dt|`-wide window (`segNorm` below);
   * the enumeration `for k, w in enumerate(in_seg)` indexes `windows[k]`
     by the position `k` inside the *filtered* sequence `in_seg`, not by
     the position of the matching segment in `segs`.  So an in-reach
     event whose time lies in `m` of the segments credits its channel to
     the cells of the first `m` windows of the descending-sorted window
     list (for each satisfied snr threshold) - whichever segments
     actually matched.  For all-nonnegative window lists the segments
     are nested and the two coincide; `localSets` models the positional
     rule exactly;
   * the initial sorting of `windows` is therefore part of the counting
     semantics and is applied inside `find_all_coincidences`; the
     sorting of `snrs` only fixes the iteration order of the `coincs`
     dict keys (the threshold test `event['snr'] >= s` and the key set
     are order-insensitive), so `snrs` is left as given.  The count
     table is modelled as a function `window → snr → channel → ℕ`
     (absent key = 0; the `try/except KeyError` increment is exactly a
     default-0 increment).
   ------------------------------------------------------------------ -/

/-- The membership test `s[0] <= event['time'] <= s[1]` for the segment
`Segment(t - w/2, t + w/2)` (closed on both ends, endpoints ordered by
the ligo.segments constructor). -/
def inWindow (t w x : ℚ) : Bool :=
  decide ((segNorm (t - w / 2, t + w / 2)).1 ≤ x) &&
    decide (x ≤ (segNorm (t - w / 2, t + w / 2)).2)

/-- The number of segments (built from the descending-sorted window
list) containing the event time: the length of the filtered `in_seg`
sequence. -/
def matchCount (t : ℚ) (windowsSorted : List ℚ) (x : ℚ) : ℕ :=
  windowsSorted.countP (fun w => inWindow t w x)

/-- One direction of the neighbour scan: events examined before the scan
breaks, i.e. the maximal prefix of non-primary-channel events. -/
def scanHalf (channel : String) (l : List Event) : List Event :=
  l.takeWhile (fun e => e.channel != channel)

/-- All events examined by the left scan (`j = i-1, i-2, ...`) and the
right scan (`j = i+1, i+2, ...`) around position `i` of the time-sorted
table, each stopping at the first primary-channel event. -/
def reach (sorted : List Event) (channel : String) (i : ℕ) : List Event :=
  scanHalf channel ((sorted.take i).reverse) ++ scanHalf channel (sorted.drop (i + 1))

/-- The per-primary-event `channels` accumulator: for each grid cell the
set of auxiliary channels contributed by the scanned events (a Python
`set`, so repeated neighbours from one channel collapse).  An event in
`m` of the segments adds its channel at `(windows[k], snr)` for
`k = 0, ..., m-1` - the first `m` windows of the sorted list - for each
satisfied threshold; this is the positional `enumerate(in_seg)`
indexing of the source. -/
def localSets (t : ℚ) (windowsSorted snrs : List ℚ) (evs : List Event) :
    ℚ → ℚ → Finset String :=
  evs.foldl
    (fun acc e => fun w s =>
      if w ∈ windowsSorted.take (matchCount t windowsSorted e.time) ∧
          s ∈ snrs ∧ s ≤ e.snr
      then insert e.channel (acc w s) else acc w s)
    (fun _ _ => ∅)

/-- The `count 'em up` step: bump the count of every `(cell, channel)`
pair present in the per-event sets (`try: += 1 except KeyError: = 1`). -/
def bump (cnt : ℚ → ℚ → String → ℕ) (sets : ℚ → ℚ → Finset String) :
    ℚ → ℚ → String → ℕ :=
  fun w s c => if c ∈ sets w s then cnt w s c + 1 else cnt w s c

/-- The main loop of `find_all_coincidences` over the time-sorted table:
non-primary rows are skipped (`if x['channel'] != channel: continue`),
and each primary row bumps the counts of its local channel sets.
`windowsSorted` is the already descending-sorted window list. -/
def processAll (sorted : List Event) (channel : String)
    (snrs windowsSorted : List ℚ) : ℚ → ℚ → String → ℕ :=
  (List.range sorted.length).foldl
    (fun cnt i =>
      match sorted[i]? with
      | some x =>
        if x.channel = channel then
          bump cnt (localSets x.time windowsSorted snrs (reach sorted channel i))
        else cnt
      | none => cnt)
    (fun _ _ _ => 0)

/-- `find_all_coincidences(triggers, channel, snrs, windows)` as the
count table it builds: the value at `(window, snr, aux-channel)`.  The
window list is sorted descending first (`sorted(windows, reverse=True)`),
which the positional cell attribution depends on. -/
def find_all_coincidences (triggers : List Event) (channel : String)
    (snrs windows : List ℚ) : ℚ → ℚ → String → ℕ :=
  processAll (sortByTime triggers) channel snrs (List.insertionSort geQ windows)

/-- Modelled from the spec text of claims C1 (not from the source): the
number of primary-channel events of the table that have at least one
event of channel `c` anywhere in the table with time inside the window
centred on the primary event and snr at least the threshold. -/
def specCoincCount (triggers : List Event) (channel : String) (w s : ℚ)
    (c : String) : ℕ :=
  triggers.countP (fun x =>
    decide (x.channel = channel) &&
      triggers.any (fun e =>
        decide (e.channel = c) && inWindow x.time w e.time && decide (s ≤ e.snr)))

/-- The predicate of the amended claim C1: position `i` of the
time-sorted table holds a primary-channel event that has, *within its
scan reach* (which stops at the nearest primary-channel event in each
direction), at least one event of channel `c` inside the window and at
or above the snr threshold. -/
def primaryScores (sorted : List Event) (channel c : String) (w s : ℚ)
    (i : ℕ) : Bool :=
  (sorted[i]?).any (fun x =>
    decide (x.channel = channel) &&
      (reach sorted channel i).any (fun e =>
        decide (e.channel = c) && inWindow x.time w e.time && decide (s ≤ e.snr)))

/- ------------------------------------------------------------------
   Segments, `coalesce` and `veto` (core.py lines 308-353)
   ------------------------------------------------------------------ -/

/-- Lexicographic order on segments, as used by Python's tuple `sort`
inside `segmentlist.coalesce`. -/
def segLex (p q : Seg) : Prop := p.1 < q.1 ∨ (p.1 = q.1 ∧ p.2 ≤ q.2)

instance : DecidableRel segLex := fun p q =>
  inferInstanceAs (Decidable (p.1 < q.1 ∨ (p.1 = q.1 ∧ p.2 ≤ q.2)))

instance : IsTotal Seg segLex := by
  constructor
  intro a b
  rcases lt_trichotomy a.1 b.1 with h | h | h
  · exact Or.inl (Or.inl h)
  · rcases le_total a.2 b.2 with h2 | h2
    · exact Or.inl (Or.inr ⟨h, h2⟩)
    · exact Or.inr (Or.inr ⟨h.symm, h2⟩)
  · exact Or.inr (Or.inl h)

instance : IsTrans Seg segLex := by
  constructor
  intro a b c hab hbc
  rcases hab with h | ⟨he, h2⟩
  · rcases hbc with h' | ⟨he', _⟩
    · exact Or.inl (lt_trans h h')
    · exact Or.inl (he' ▸ h)
  · rcases hbc with h' | ⟨he', h2'⟩
    · exact Or.inl (he ▸ h')
    · exact Or.inr ⟨he.trans he', le_trans h2 h2'⟩

/-- The sorting pass of `ligo.segments.segmentlist.coalesce`. -/
def sortSegs (l : List Seg) : List Seg := List.insertionSort segLex l

/-- The merging pass of `ligo.segments.segmentlist.coalesce`: absorb
successive segments while `hi >= next.lo` (taking the max of the upper
ends), and drop a merged group whose bounds are equal (`if lo != hi`). -/
def mergeSegs : ℚ → ℚ → List Seg → List Seg
  | lo, hi, [] => if lo = hi then [] else [(lo, hi)]
  | lo, hi, (a, b) :: rest =>
    if a ≤ hi then mergeSegs lo (max hi b) rest
    else (if lo = hi then [] else [(lo, hi)]) ++ mergeSegs a b rest

/-- `segmentlist.coalesce()` from ligo.segments (the library call made on
line 331 of core.py): normalise, sort, merge overlapping or contiguous
segments, drop empty ones. -/
def coalesce (l : List Seg) : List Seg :=
  match sortSegs (l.map segNorm) with
  | [] => []
  | (lo, hi) :: rest => mergeSegs lo hi rest

/-- The two-pointer scan of `veto` (lines 333-352), acting on the sorted
time column.  `true` means keep.  The three branches are the source's
`t < a` (keep, next trigger), `t > b` (advance to the next segment and
re-check the same trigger; running off the end of the segment list
breaks the loop, keeping the rest), and the remaining case
`a <= t <= b` (remove, next trigger). -/
def vetoFlags (segs : List Seg) (ts : List ℚ) : List Bool :=
  match segs, ts with
  | _, [] => []
  | [], _ :: ts' => true :: vetoFlags [] ts'
  | (a, b) :: rest, t :: ts' =>
    if t < a then true :: vetoFlags ((a, b) :: rest) ts'
    else if b < t then vetoFlags rest (t :: ts')
    else false :: vetoFlags ((a, b) :: rest) ts'
termination_by segs.length + ts.length

/-- Boolean-mask selection `table[mask]`: the rows whose flag is set, in
table order. -/
def maskFilter (l : List Event) (flags : List Bool) : List Event :=
  ((l.zip flags).filter (fun p => p.2)).map Prod.fst

/-- `veto(table, segmentlist)` (lines 308-353).  The code sorts the
table by time, coalesces the segment list, and runs the two-pointer
scan.  `a, b = segmentlist[0]` is executed before the loop and outside
any `try`, so an empty (coalesced) segment list raises an uncaught
`IndexError`, modelled as `none`. -/
def veto (table : List Event) (segmentlist : List Seg) :
    Option (List Event × List Event) :=
  let sorted := sortByTime table
  match coalesce segmentlist with
  | [] => none
  | cs :: css =>
    let flags := vetoFlags (cs :: css) (sorted.map Event.time)
    some (maskFilter sorted flags, maskFilter sorted (flags.map (fun b => !b)))

/-- The per-event coverage test of the spec for `veto`: the event's time
lies inside some segment of the given list (`start <= t <= end`). -/
def coveredBy (segs : List Seg) (t : ℚ) : Bool :=
  segs.any (fun sg => decide (sg.1 ≤ t) && decide (t ≤ sg.2))

/-- `veto_all(auxiliary, segmentlist)` (lines 356-379): stack all the
channel tables (in dict order), run `veto` once, and regroup the kept
rows by the value of their channel column. -/
def veto_all (auxiliary : List (String × List Event)) (segmentlist : List Seg) :
    Option (List (String × List Event)) :=
  let t := (auxiliary.map Prod.snd).flatten
  (veto t segmentlist).map (fun kr =>
    auxiliary.map (fun p => (p.1, kr.1.filter (fun e => e.channel == p.1))))

/- ------------------------------------------------------------------
   Significance engine (core.py lines 24-39 and 221-272)

   The Python code works with IEEE doubles; here the same expressions
   are given exact real semantics.  `math.log10` raises `ValueError` on
   a non-positive argument, modelled by an `Option`-valued `log10`; a
   raised exception propagates through every caller as `none`.  For the
   regularized lower incomplete gamma at integer order we use
   `P(n, x) = 1 - exp(-x) * ∑_{k<n} x^k/k!` (`n ≥ 1`), which is the
   mathematical value scipy's `gammainc` computes; for `n = 0` scipy
   returns `1` when `x > 0`, and for the zero integration limit we adopt
   the cephes convention `gammainc(n, 0) = 0` (modern scipy returns NaN
   at `(0, 0)`; under either convention `significance(0, 0)` does not
   return `0`, which is all the claims below depend on).
   ------------------------------------------------------------------ -/

/-- `LOG_10 = log(10)` (module constant). -/
noncomputable def LOG_10 : ℝ := Real.log 10

/-- `LOG_EXP_1 = log10(exp(1))` (module constant). -/
noncomputable def LOG_EXP_1 : ℝ := Real.log (Real.exp 1) / Real.log 10

/-- `scipy.special.gammaln` at a positive integer argument:
`gammaln(m) = log Γ(m) = log (m-1)!`. -/
noncomputable def gammaln (m : ℕ) : ℝ := Real.log (Nat.factorial (m - 1))

/-- The partial exponential sum `∑_{k<n} x^k / k!`. -/
noncomputable def poissonSum (n : ℕ) (x : ℝ) : ℝ :=
  ∑ k ∈ Finset.range n, x ^ k / Nat.factorial k

open Classical in
/-- `scipy.special.gammainc(n, mu)` (regularized lower incomplete gamma)
at integer order, in exact real semantics (see the section comment). -/
noncomputable def gammainc (n : ℕ) (mu : ℝ) : ℝ :=
  if n = 0 then (if 0 < mu then 1 else 0)
  else 1 - Real.exp (-mu) * poissonSum n mu

open Classical in
/-- `math.log10`: raises `ValueError` (here `none`) unless the argument
is positive. -/
noncomputable def log10 (x : ℝ) : Option ℝ :=
  if 0 < x then some (Real.log x / Real.log 10) else none

open Classical in
/-- `significance(n, mu)` (lines 257-272): `g = gammainc(n, mu)`; if `g`
is zero, fall back to the asymptotic expansion
`-n*log10(mu) + mu*LOG_EXP_1 + gammaln(n+1)/LOG_10`, otherwise return
`-log10(g)`.  There is no special case for `n = 0`.  A `ValueError`
raised by `log10` propagates (`none`). -/
noncomputable def significance (n : ℕ) (mu : ℝ) : Option ℝ :=
  let g := gammainc n mu
  if g = 0 then
    (log10 mu).map (fun l => -(n : ℝ) * l + mu * LOG_EXP_1 + gammaln (n + 1) / LOG_10)
  else
    (log10 g).map (fun l => -l)

open Classical in
/-- `coinc_significance(a, b, dt, livetime)` (lines 221-254): find the
coincidences, return `(coincs, 0)` when there are none; otherwise
compute `prob = a.size * dt / livetime`, where a `ZeroDivisionError`
(zero livetime) is caught and `prob` set to `0`, then
`mu = prob * b.size` and the pair `(coincs, significance(n, mu))`. -/
noncomputable def coinc_significance (a b : List ℚ) (dt livetime : ℚ) :
    Option (List ℕ × ℝ) :=
  let coincs := find_coincidences a b dt
  let n := coincs.length
  if n = 0 then some (coincs, 0)
  else
    let prob : ℚ := if livetime = 0 then 0 else (a.length : ℚ) * dt / livetime
    let mu : ℝ := ((prob * (b.length : ℚ) : ℚ) : ℝ)
    (significance n mu).map (fun s => (coincs, s))

/- ------------------------------------------------------------------
   `HvetoWinner` (core.py lines 201-218) and
   `find_max_significance` (core.py lines 155-198)
   ------------------------------------------------------------------ -/

/-- The `HvetoWinner` slot object.  Fields assigned by `__init__` hold
the Python value (`Option`: `none` models a Python `None` value); the
two slots `ncoinc` and `n_vetoed` are declared in `__slots__` but never
assigned by the constructor, so for them `none` models the *unset* slot
state, where an attribute read raises `AttributeError`. -/
structure HvetoWinner where
  name : Option String
  significance : Option ℝ
  snr : Option ℚ
  window : Option ℚ
  segments : Option (List Seg)
  events : Option (List Event)
  ncoinc : Option ℤ
  mu : Option ℝ
  n_vetoed : Option ℤ

/-- `HvetoWinner.__init__(self, name=None, significance=None, snr=None,
window=None, segments=None, events=None, ncoinc=0, mu=None)`: assigns
`name`, `significance`, `snr`, `window`, `segments`, `events` and `mu`;
the `ncoinc` argument is accepted but never stored, and `n_vetoed` is
never assigned, so both slots stay unset. -/
def HvetoWinner.init (name : Option String) (significance : Option ℝ)
    (snr : Option ℚ) (window : Option ℚ) (segments : Option (List Seg))
    (events : Option (List Event)) (ncoinc : ℤ) (mu : Option ℝ) : HvetoWinner :=
  { name := name, significance := significance, snr := snr, window := window,
    segments := segments, events := events, ncoinc := none, mu := mu,
    n_vetoed := none }

/-- The comparison `sig > winner.significance` on a possibly-`None`
float slot (in `find_max_significance` the slot is always a number). -/
def optLtVal (o : Option ℝ) (x : ℝ) : Prop := ∃ v, o = some v ∧ v < x

/-- The iteration order of the `coincs` dict built by
`find_all_coincidences`: its keys are inserted in the order
`itertools.product(sorted(windows, reverse=True), sorted(snrs))`. -/
def cellList (windows snrs : List ℚ) : List (ℚ × ℚ) :=
  (List.insertionSort geQ windows).flatMap
    (fun w => (List.insertionSort leQ snrs).map (fun s => (w, s)))

open Classical in
/-- `find_max_significance(primary, auxiliary, channel, snrs, windows,
livetime)` (lines 155-198).  The combined table is
`vstack([primary] + auxiliary.values())`; the code then walks the cells
of the `coincs` dict and, per cell, the channels recorded for it (the
channels with a nonzero count; Python's dict preserves first-insertion
order, which can differ from the `auxiliary` key order used here - that
difference only affects which of several candidates with *equal*
significance is kept, not any claim settled below).  The winner starts
as `HvetoWinner(name='unknown', significance=-1)` and `sigs` maps every
auxiliary channel to `0`.  `mu` is modelled with rational division
(`livetime = 0` would raise in Python but is unreachable in the claims
proved about this function, which concern the no-coincidence paths).
An exception raised by `significance` propagates (`none`).  The dead
`except KeyError: sig == 0` branch is unreachable because the iterated
channels are exactly the keys of `coincs[p]`. -/
noncomputable def find_max_significance (primary : List Event)
    (auxiliary : List (String × List Event)) (channel : String)
    (snrs windows : List ℚ) (livetime : ℚ) :
    Option (HvetoWinner × (String → ℝ)) :=
  let recTbl := primary ++ (auxiliary.map Prod.snd).flatten
  let coincs := find_all_coincidences recTbl channel snrs windows
  let init : HvetoWinner × (String → ℝ) :=
    (HvetoWinner.init (some "unknown") (some (-1)) none none none none 0 none,
     fun _ => 0)
  (cellList windows snrs).foldl
    (fun acc cell =>
      ((auxiliary.map Prod.fst).filter (fun c => coincs cell.1 cell.2 c != 0)).foldl
        (fun acc2 chan =>
          match acc2 with
          | none => none
          | some st =>
            let dt := cell.1
            let snr := cell.2
            let aux := ((auxiliary.lookup chan).getD [])
            let mu : ℝ :=
              (((primary.length : ℚ) *
                ((aux.filter (fun e => decide (snr ≤ e.snr))).length : ℚ) *
                dt / livetime : ℚ) : ℝ)
            match significance (coincs dt snr chan) mu with
            | none => none
            | some sig =>
              let sigs' := if st.2 chan < sig then Function.update st.2 chan sig
                else st.2
              let w' := if optLtVal st.1.significance sig then
                  { st.1 with
                    name := some chan
                    snr := some snr
                    window := some dt
                    significance := some sig
                    mu := some mu }
                else st.1
              some (w', sigs'))
        acc)
    (some init)

/- ==================================================================
   Theorems
   ================================================================== -/

/- ---------------- C10 : HvetoWinner slots ---------------- -/

/-- Claim C10: for every freshly constructed `HvetoWinner`, the `ncoinc`
constructor argument is discarded and the `ncoinc` and `n_vetoed` slots
are left unset (reading them raises `AttributeError`, modelled as
`none`), for every combination of constructor arguments. -/
theorem hvetoWinner_init_slots_unset (nm : Option String) (sg : Option ℝ)
    (sn : Option ℚ) (wd : Option ℚ) (se : Option (List Seg))
    (ev : Option (List Event)) (nc : ℤ) (m : Option ℝ) :
    (HvetoWinner.init nm sg sn wd se ev nc m).ncoinc = none ∧
      (HvetoWinner.init nm sg sn wd se ev nc m).n_vetoed = none :=
  ⟨rfl, rfl⟩

/- ---------------- C2 : find_coincidences ---------------- -/

/-- Splitting lemma for the two bisection counts: for `lo ≤ hi`, the
number of elements `≤ hi` is the number `< lo` plus the number inside
the closed interval `[lo, hi]`. -/
theorem countP_le_split (b : List ℚ) (lo hi : ℚ) (h : lo ≤ hi) :
    b.countP (fun x => decide (x ≤ hi)) =
      b.countP (fun x => decide (x < lo)) +
        b.countP (fun x => decide (lo ≤ x) && decide (x ≤ hi)) := by
  induction b with
  | nil => rfl
  | cons y b ih =>
    simp only [List.countP_cons, ih]
    rcases lt_or_le y lo with hy | hy
    · have h1 : y ≤ hi := le_trans hy.le h
      simp [hy, h1, not_le.mpr hy]
      omega
    · rcases le_or_lt y hi with h2 | h2
      · simp [hy, h2, not_lt.mpr hy]
        omega
      · simp [not_le.mpr h2, not_lt.mpr hy, hy]

/-- The branch test of `find_coincidences`: with a nonnegative window,
the two bisection points differ iff `b` has an element in the *closed*
interval `[t - dx, t + dx]`. -/
theorem is_coincident_iff (b : List ℚ) (dx t : ℚ) (hdx : 0 ≤ dx) :
    is_coincident b dx t = true ↔ ∃ x ∈ b, t - dx ≤ x ∧ x ≤ t + dx := by
  have hle : t - dx ≤ t + dx := by linarith
  have hsplit := countP_le_split b (t - dx) (t + dx) hle
  unfold is_coincident bisect_left bisect_right
  rw [bne_iff_ne]
  constructor
  · intro hne
    have hpos : 0 < b.countP (fun x => decide (t - dx ≤ x) && decide (x ≤ t + dx)) := by
      omega
    obtain ⟨x, hxb, hx⟩ := List.countP_pos_iff.mp hpos
    refine ⟨x, hxb, ?_⟩
    simpa using hx
  · rintro ⟨x, hxb, hx1, hx2⟩
    have hpos : 0 < b.countP (fun x => decide (t - dx ≤ x) && decide (x ≤ t + dx)) :=
      List.countP_pos_iff.mpr ⟨x, hxb, by simp [hx1, hx2]⟩
    omega

/-- Claim C2, counterexample: for `a = [0]`, ascending-sorted
`b = [1]`, `dt = 2`, the single element of `b` equals
`a[0] + dt/2`; the claim says position `0` is not a hit, but
`find_coincidences` (whose `bisect_right` bound makes the window closed
on the right) reports it as one. -/
theorem find_coincidences_closed_right_counterexample :
    find_coincidences [0] [1] 2 = [0] ∧ specHitPositions [0] [1] 2 = [] ∧
      find_coincidences [0] [1] 2 ≠ specHitPositions [0] [1] 2 := by
  refine ⟨?_, ?_, ?_⟩ <;> with_unfolding_all decide

/-- Claim C2 as amended: for every `a`, ascending-sorted `b` and
nonnegative `dt`, `find_coincidences(a, b, dt)` returns exactly the
positions `i` of `a` such that `b` contains an element of the *closed*
window `[a[i] - dt/2, a[i] + dt/2]` (both endpoints included). -/
theorem find_coincidences_characterization (a b : List ℚ) (dt : ℚ)
    (hb : b.Sorted (· ≤ ·)) (hdt : 0 ≤ dt) (i : ℕ) :
    i ∈ find_coincidences a b dt ↔
      i < a.length ∧
        ∃ x ∈ b, a.getD i 0 - dt / 2 ≤ x ∧ x ≤ a.getD i 0 + dt / 2 := by
  have hdx : (0 : ℚ) ≤ dt / 2 := by linarith
  unfold find_coincidences
  rw [List.mem_filter, List.mem_range]
  exact and_congr Iff.rfl (is_coincident_iff b (dt / 2) (a.getD i 0) hdx)

/-- Witness for `find_coincidences_characterization` at the spec's own
example `a = [10, 20, 30]`, `b = [10.05, 25]`, `dt = 0.2`, position 0. -/
theorem find_coincidences_characterization_witness :
    (0 ∈ find_coincidences [10, 20, 30] [10.05, 25] 0.2) ↔
      0 < ([10, 20, 30] : List ℚ).length ∧
        ∃ x ∈ ([10.05, 25] : List ℚ),
          ([10, 20, 30] : List ℚ).getD 0 0 - 0.2 / 2 ≤ x ∧
            x ≤ ([10, 20, 30] : List ℚ).getD 0 0 + 0.2 / 2 :=
  find_coincidences_characterization [10, 20, 30] [10.05, 25] 0.2
    (by with_unfolding_all decide) (by with_unfolding_all decide) 0

/- ---------------- C1 : find_all_coincidences ---------------- -/

/-- For a nonnegative width the segment constructor performs no endpoint
swap and the membership test is the plain closed window. -/
theorem inWindow_of_nonneg (t w x : ℚ) (hw : 0 ≤ w) :
    inWindow t w x = (decide (t - w / 2 ≤ x) && decide (x ≤ t + w / 2)) := by
  have h : t - w / 2 ≤ t + w / 2 := by linarith
  unfold inWindow segNorm
  simp only [min_eq_left h, max_eq_right h]

/-- Window membership is monotone in the width, on nonnegative widths. -/
theorem inWindow_mono (t x a b : ℚ) (ha : 0 ≤ a) (hab : a ≤ b) :
    inWindow t a x = true → inWindow t b x = true := by
  intro h
  have hb : 0 ≤ b := le_trans ha hab
  rw [inWindow_of_nonneg t a x ha] at h
  rw [inWindow_of_nonneg t b x hb]
  simp only [Bool.and_eq_true, decide_eq_true_eq] at h ⊢
  obtain ⟨h1, h2⟩ := h
  constructor
  · linarith
  · linarith

/-- On a descending-sorted list along which the predicate is monotone
(true at an element forces true at every larger element of the list),
the first `countP` elements are exactly the elements satisfying the
predicate: the positional prefix and the value filter agree. -/
theorem mem_take_countP (P : ℚ → Bool) :
    ∀ (ws : List ℚ),
      (∀ a ∈ ws, ∀ b ∈ ws, a ≤ b → P a = true → P b = true) →
      List.Sorted geQ ws →
      ∀ w, w ∈ ws.take (ws.countP P) ↔ (w ∈ ws ∧ P w = true) := by
  intro ws
  induction ws with
  | nil => intro _ _ w; simp
  | cons v rest ih =>
    intro hmono hsort w
    have hhead : ∀ b ∈ rest, b ≤ v := fun b hb => (List.pairwise_cons.mp hsort).1 b hb
    have htail := ih
      (fun a ha b hb hab => hmono a (List.mem_cons_of_mem _ ha) b (List.mem_cons_of_mem _ hb) hab)
      (List.pairwise_cons.mp hsort).2
    cases hv : P v with
    | true =>
      rw [List.countP_cons_of_pos _ _ hv, List.take_succ_cons, List.mem_cons]
      rw [htail w]
      constructor
      · rintro (rfl | ⟨hw1, hw2⟩)
        · exact ⟨List.mem_cons_self _ _, hv⟩
        · exact ⟨List.mem_cons_of_mem _ hw1, hw2⟩
      · rintro ⟨hw1, hw2⟩
        rcases List.mem_cons.mp hw1 with rfl | hw1
        · exact Or.inl rfl
        · exact Or.inr ⟨hw1, hw2⟩
    | false =>
      have hrest0 : rest.countP P = 0 := by
        by_contra hne
        obtain ⟨b, hb, hPb⟩ := List.countP_pos_iff.mp (Nat.pos_of_ne_zero hne)
        have := hmono b (List.mem_cons_of_mem _ hb) v (List.mem_cons_self _ _)
          (hhead b hb) hPb
        rw [hv] at this
        cases this
      rw [List.countP_cons_of_neg _ _ (by simp [hv]), hrest0, List.take_zero]
      constructor
      · intro hw1
        cases hw1
      · rintro ⟨hw1, hw2⟩
        rcases List.mem_cons.mp hw1 with rfl | hw1
        · rw [hv] at hw2
          cases hw2
        · exact absurd hw2 (List.countP_eq_zero.mp hrest0 w hw1)

/-- On a descending-sorted, all-nonnegative window list the positional
cell attribution of the source (`windows[k]` for `k` ranging over the
filtered `in_seg` positions) credits exactly the windows whose segment
contains the event: the segments are nested, so the filtered sequence
is a prefix. -/
theorem mem_take_matchCount (t x : ℚ) (ws : List ℚ)
    (hsort : List.Sorted geQ ws) (hnonneg : ∀ v ∈ ws, 0 ≤ v) (w : ℚ) :
    w ∈ ws.take (matchCount t ws x) ↔ (w ∈ ws ∧ inWindow t w x = true) := by
  unfold matchCount
  exact mem_take_countP (fun w => inWindow t w x) ws
    (fun a ha b hb hab hPa => inWindow_mono t x a b (hnonneg a ha) hab hPa) hsort w

/-- Membership in the per-primary-event channel sets: channel `c` is in
the set of cell `(w, s)` iff some in-reach event of channel `c` puts `w`
among the first `matchCount` windows of the sorted list and meets the
snr threshold `s ∈ snrs`. -/
theorem mem_localSets (t : ℚ) (windowsSorted snrs : List ℚ) (evs : List Event)
    (w s : ℚ) (c : String) :
    c ∈ localSets t windowsSorted snrs evs w s ↔
      ∃ e ∈ evs, e.channel = c ∧
        w ∈ windowsSorted.take (matchCount t windowsSorted e.time) ∧
        s ∈ snrs ∧ s ≤ e.snr := by
  suffices h : ∀ (l : List Event) (acc : ℚ → ℚ → Finset String),
      c ∈ (l.foldl
          (fun acc e => fun w s =>
            if w ∈ windowsSorted.take (matchCount t windowsSorted e.time) ∧
                s ∈ snrs ∧ s ≤ e.snr
            then insert e.channel (acc w s) else acc w s) acc) w s ↔
        c ∈ acc w s ∨ ∃ e ∈ l, e.channel = c ∧
          w ∈ windowsSorted.take (matchCount t windowsSorted e.time) ∧
          s ∈ snrs ∧ s ≤ e.snr by
    unfold localSets
    rw [h evs (fun _ _ => ∅)]
    simp
  intro l
  induction l with
  | nil => intro acc; simp
  | cons e l ih =>
    intro acc
    rw [List.foldl_cons, ih]
    by_cases hc : w ∈ windowsSorted.take (matchCount t windowsSorted e.time) ∧
        s ∈ snrs ∧ s ≤ e.snr
    · simp only [if_pos hc, Finset.mem_insert, List.mem_cons]
      obtain ⟨h1, h2, h3⟩ := hc
      constructor
      · rintro ((rfl | hmem) | hrest)
        · exact Or.inr ⟨e, Or.inl rfl, rfl, h1, h2, h3⟩
        · exact Or.inl hmem
        · obtain ⟨e', he', hcond⟩ := hrest
          exact Or.inr ⟨e', Or.inr he', hcond⟩
      · rintro (hmem | ⟨e', (rfl | he'), hch, hcond⟩)
        · exact Or.inl (Or.inr hmem)
        · exact Or.inl (Or.inl hch.symm)
        · exact Or.inr ⟨e', he', hch, hcond⟩
    · simp only [if_neg hc, List.mem_cons]
      constructor
      · rintro (hmem | hrest)
        · exact Or.inl hmem
        · obtain ⟨e', he', hcond⟩ := hrest
          exact Or.inr ⟨e', Or.inr he', hcond⟩
      · rintro (hmem | ⟨e', (rfl | he'), hch, hw1, hs1, hs2⟩)
        · exact Or.inl hmem
        · exact absurd ⟨hw1, hs1, hs2⟩ hc
        · exact Or.inr ⟨e', he', hch, hw1, hs1, hs2⟩

/-- The main loop counts, at each grid cell `(w, s)` of a
descending-sorted, all-nonnegative window list, exactly the primary
positions satisfying `primaryScores`. -/
theorem processAll_count (sorted : List Event) (channel c : String)
    (snrs ws : List ℚ) (w s : ℚ)
    (hsort : List.Sorted geQ ws) (hnonneg : ∀ v ∈ ws, 0 ≤ v)
    (hw : w ∈ ws) (hs : s ∈ snrs) :
    processAll sorted channel snrs ws w s c =
      (List.range sorted.length).countP (primaryScores sorted channel c w s) := by
  suffices h : ∀ (l : List ℕ) (cnt : ℚ → ℚ → String → ℕ),
      (l.foldl
        (fun cnt i =>
          match sorted[i]? with
          | some x =>
            if x.channel = channel then
              bump cnt (localSets x.time ws snrs (reach sorted channel i))
            else cnt
          | none => cnt) cnt) w s c =
        cnt w s c + l.countP (primaryScores sorted channel c w s) by
    unfold processAll
    rw [h (List.range sorted.length) (fun _ _ _ => 0)]
    omega
  intro l
  induction l with
  | nil => intro cnt; simp
  | cons i l ih =>
    intro cnt
    rw [List.foldl_cons, ih, List.countP_cons]
    have hstep :
        (match sorted[i]? with
          | some x =>
            if x.channel = channel then
              bump cnt (localSets x.time ws snrs (reach sorted channel i))
            else cnt
          | none => cnt) w s c =
          cnt w s c + (if primaryScores sorted channel c w s i then 1 else 0) := by
      unfold primaryScores
      cases hx : sorted[i]? with
      | none => simp
      | some x =>
        simp only [Option.any_some]
        by_cases hch : x.channel = channel
        · rw [if_pos hch]
          unfold bump
          by_cases hmem : c ∈ localSets x.time ws snrs (reach sorted channel i) w s
          · obtain ⟨e, he, hech, hwtake, -, hsnr⟩ := (mem_localSets _ _ _ _ _ _ _).mp hmem
            have hwin : inWindow x.time w e.time = true :=
              ((mem_take_matchCount x.time e.time ws hsort hnonneg w).mp hwtake).2
            have hany : (reach sorted channel i).any
                (fun e => decide (e.channel = c) && inWindow x.time w e.time &&
                  decide (s ≤ e.snr)) = true := by
              refine List.any_eq_true.mpr ⟨e, he, ?_⟩
              simp [hech, hwin, hsnr]
            rw [if_pos hmem]
            simp [hch, hany]
          · have hany : (reach sorted channel i).any
                (fun e => decide (e.channel = c) && inWindow x.time w e.time &&
                  decide (s ≤ e.snr)) = false := by
              rw [List.any_eq_false]
              intro e he
              intro hcontra
              apply hmem
              rw [mem_localSets]
              simp only [Bool.and_eq_true, decide_eq_true_eq] at hcontra
              refine ⟨e, he, hcontra.1.1, ?_, hs, hcontra.2⟩
              exact (mem_take_matchCount x.time e.time ws hsort hnonneg w).mpr
                ⟨hw, hcontra.1.2⟩
            rw [if_neg hmem]
            simp [hany]
        · rw [if_neg hch]
          simp [hch]
    rw [hstep]
    omega

/-- Claim C1 as amended: for every grid cell of a grid whose window
widths are nonnegative (the physical case; with a negative width the
ligo.segments constructor swaps the segment endpoints and the
positional `windows[k]` indexing credits a different cell), the count
`find_all_coincidences` produces for an auxiliary channel is the number
of primary-channel events whose *scan reach* (the run of non-primary
events between the neighbouring primary-channel events in the
time-sorted combined table) contains at least one event of that channel
inside the window and at or above the threshold.  Neighbours beyond an
adjacent primary-channel event are not seen; multiple qualifying
neighbours from one channel still count once. -/
theorem find_all_coincidences_reach_characterization (triggers : List Event)
    (channel c : String) (snrs windows : List ℚ) (w s : ℚ)
    (hw : w ∈ windows) (hs : s ∈ snrs) (hpos : ∀ v ∈ windows, 0 ≤ v) :
    find_all_coincidences triggers channel snrs windows w s c =
      (List.range (sortByTime triggers).length).countP
        (primaryScores (sortByTime triggers) channel c w s) :=
  processAll_count (sortByTime triggers) channel c snrs
    (List.insertionSort geQ windows) w s
    (List.sorted_insertionSort geQ windows)
    (fun v hv => hpos v ((List.mem_insertionSort geQ).mp hv))
    ((List.mem_insertionSort geQ).mpr hw) hs

/-- Witness for `find_all_coincidences_reach_characterization`: a single
primary event with three qualifying neighbours from channel `x`
contributes exactly 1 (the amended many-to-one suppression). -/
theorem find_all_coincidences_reach_characterization_witness :
    (find_all_coincidences
        [⟨5, 0, 1, "h"⟩, ⟨4, 0, 5, "x"⟩, ⟨6, 0, 5, "x"⟩, ⟨7, 0, 5, "x"⟩]
        "h" [1] [10] 10 1 "x" =
      (List.range (sortByTime
        [⟨5, 0, 1, "h"⟩, ⟨4, 0, 5, "x"⟩, ⟨6, 0, 5, "x"⟩, ⟨7, 0, 5, "x"⟩]).length).countP
        (primaryScores (sortByTime
          [⟨5, 0, 1, "h"⟩, ⟨4, 0, 5, "x"⟩, ⟨6, 0, 5, "x"⟩, ⟨7, 0, 5, "x"⟩]) "h" "x" 10 1)) ∧
      find_all_coincidences
        [⟨5, 0, 1, "h"⟩, ⟨4, 0, 5, "x"⟩, ⟨6, 0, 5, "x"⟩, ⟨7, 0, 5, "x"⟩]
        "h" [1] [10] 10 1 "x" = 1 :=
  ⟨find_all_coincidences_reach_characterization
      [⟨5, 0, 1, "h"⟩, ⟨4, 0, 5, "x"⟩, ⟨6, 0, 5, "x"⟩, ⟨7, 0, 5, "x"⟩]
      "h" "x" [1] [10] 10 1 (by with_unfolding_all decide)
      (by with_unfolding_all decide) (by with_unfolding_all decide),
    by with_unfolding_all decide⟩

/-- Claim C1, counterexample: with primary events at times 0 and 1 and
one auxiliary event (`x`, snr 5) at time 2, window 10, threshold 1, both
primary events have a qualifying `x` neighbour in-window (the claim
demands a count of 2), but the scan of the primary at time 0 stops at
the primary event at time 1 before reaching the `x` event, so the code
counts only 1. -/
theorem find_all_coincidences_counterexample :
    find_all_coincidences
        [⟨0, 0, 1, "h"⟩, ⟨1, 0, 1, "h"⟩, ⟨2, 0, 5, "x"⟩] "h" [1] [10] 10 1 "x" = 1 ∧
      specCoincCount [⟨0, 0, 1, "h"⟩, ⟨1, 0, 1, "h"⟩, ⟨2, 0, 5, "x"⟩] "h" 10 1 "x" = 2 := by
  constructor <;> with_unfolding_all decide

/- ---------------- C3 / C8 : veto ---------------- -/

/-- The merging pass emits segments with ordered endpoints that start at
or after `lo`, and consecutive output segments are separated by a
strict gap. -/
theorem mergeSegs_props (l : List Seg) : ∀ (lo hi : ℚ), lo ≤ hi →
    (∀ p ∈ l, p.1 ≤ p.2) → (∀ p ∈ l, lo ≤ p.1) →
    List.Pairwise (fun p q : Seg => p.1 ≤ q.1) l →
    (∀ q ∈ mergeSegs lo hi l, q.1 ≤ q.2 ∧ lo ≤ q.1) ∧
      List.Chain' (fun p q : Seg => p.2 < q.1) (mergeSegs lo hi l) := by
  induction l with
  | nil =>
    intro lo hi hlohi _ _ _
    unfold mergeSegs
    by_cases h : lo = hi
    · simp [h]
    · simp [h, hlohi]
  | cons pq l ih =>
    intro lo hi hlohi hl hge hsort
    obtain ⟨a, b⟩ := pq
    unfold mergeSegs
    by_cases hahi : a ≤ hi
    · rw [if_pos hahi]
      exact ih lo (max hi b) (le_trans hlohi (le_max_left _ _))
        (fun p hp => hl p (List.mem_cons_of_mem _ hp))
        (fun p hp => hge p (List.mem_cons_of_mem _ hp))
        (List.Pairwise.sublist (List.sublist_cons_self _ _) hsort)
    · rw [if_neg hahi]
      have hab : a ≤ b := hl (a, b) (List.mem_cons_self _ _)
      have hrest_l : ∀ p ∈ l, p.1 ≤ p.2 := fun p hp => hl p (List.mem_cons_of_mem _ hp)
      have hrest_ge : ∀ p ∈ l, a ≤ p.1 := fun p hp =>
        (List.pairwise_cons.mp hsort).1 p hp
      have hrest_sort : List.Pairwise (fun p q : Seg => p.1 ≤ q.1) l :=
        (List.pairwise_cons.mp hsort).2
      obtain ⟨hmem, hchain⟩ := ih a b hab hrest_l hrest_ge hrest_sort
      have hhi_a : hi < a := lt_of_not_ge hahi
      by_cases hleq : lo = hi
      · rw [if_pos hleq]
        rw [List.nil_append]
        refine ⟨fun q hq => ?_, hchain⟩
        obtain ⟨h1, h2⟩ := hmem q hq
        exact ⟨h1, le_trans hlohi (le_trans (le_of_lt hhi_a) h2)⟩
      · rw [if_neg hleq]
        rw [List.singleton_append]
        constructor
        · intro q hq
          rcases List.mem_cons.mp hq with rfl | hq
          · exact ⟨hlohi, le_refl _⟩
          · obtain ⟨h1, h2⟩ := hmem q hq
            exact ⟨h1, le_trans hlohi (le_trans (le_of_lt hhi_a) h2)⟩
        · rw [List.chain'_cons']
          refine ⟨fun y hy => ?_, hchain⟩
          have hym : y ∈ mergeSegs a b l := List.mem_of_mem_head? hy
          exact lt_of_lt_of_le hhi_a (hmem y hym).2

/-- `segLex` implies ordering of the left endpoints. -/
theorem segLex_fst_le (p q : Seg) (h : segLex p q) : p.1 ≤ q.1 := by
  rcases h with h | ⟨h, _⟩
  · exact le_of_lt h
  · exact le_of_eq h

/-- The coalesced list consists of ordered segments in strictly
increasing, non-touching order. -/
theorem coalesce_props (l : List Seg) :
    (∀ q ∈ coalesce l, q.1 ≤ q.2) ∧
      List.Chain' (fun p q : Seg => p.2 < q.1) (coalesce l) := by
  unfold coalesce
  cases hs : sortSegs (l.map segNorm) with
  | nil => simp
  | cons pq rest =>
    obtain ⟨lo, hi⟩ := pq
    have hsorted : List.Sorted segLex (sortSegs (l.map segNorm)) :=
      List.sorted_insertionSort segLex (l.map segNorm)
    rw [hs] at hsorted
    have hmemall : ∀ p ∈ sortSegs (l.map segNorm), p.1 ≤ p.2 := by
      intro p hp
      have hpm : p ∈ l.map segNorm := (List.mem_insertionSort segLex).mp hp
      obtain ⟨q, -, rfl⟩ := List.mem_map.mp hpm
      exact min_le_max
    have hlohi : lo ≤ hi := by
      refine hmemall (lo, hi) ?_
      rw [hs]
      exact List.mem_cons_self _ _
    have hrest_l : ∀ p ∈ rest, p.1 ≤ p.2 := by
      intro p hp
      refine hmemall p ?_
      rw [hs]
      exact List.mem_cons_of_mem _ hp
    have hrest_ge : ∀ p ∈ rest, lo ≤ p.1 := fun p hp =>
      segLex_fst_le _ _ ((List.pairwise_cons.mp hsorted).1 p hp)
    have hrest_sort : List.Pairwise (fun p q : Seg => p.1 ≤ q.1) rest := by
      refine List.Pairwise.imp ?_ (List.pairwise_cons.mp hsorted).2
      intro p q h
      exact segLex_fst_le p q h
    obtain ⟨h1, h2⟩ := mergeSegs_props rest lo hi hlohi hrest_l hrest_ge hrest_sort
    exact ⟨fun q hq => (h1 q hq).1, h2⟩

/-- In a gap-chained list of ordered segments, every segment after the
head starts strictly after the head's upper end. -/
theorem chain_gap_forall (rest : List Seg) : ∀ (a b : ℚ),
    (∀ p ∈ rest, p.1 ≤ p.2) →
    List.Chain' (fun p q : Seg => p.2 < q.1) ((a, b) :: rest) →
    ∀ q ∈ rest, b < q.1 := by
  induction rest with
  | nil => intro a b _ _ q hq; cases hq
  | cons r rest ih =>
    intro a b hab hchain q hq
    have hhead : b < r.1 := ((List.chain'_cons).mp hchain).1
    rcases List.mem_cons.mp hq with rfl | hq
    · exact hhead
    · have htail : List.Chain' (fun p q : Seg => p.2 < q.1) ((r.1, r.2) :: rest) :=
        ((List.chain'_cons').mp hchain).2
      have hq1 := ih r.1 r.2 (fun p hp => hab p (List.mem_cons_of_mem _ hp)) htail q hq
      exact lt_trans (lt_of_lt_of_le hhead (hab r (List.mem_cons_self _ _))) hq1

/-- The two-pointer scan produces exactly the pointwise coverage flags:
position `i` is kept iff the time is covered by no segment, provided the
times are ascending and the segments are ordered and gap-chained (which
`coalesce` guarantees). -/
theorem vetoFlags_eq (segs : List Seg) (ts : List ℚ)
    (hts : List.Pairwise (fun a b : ℚ => a ≤ b) ts)
    (hab : ∀ p ∈ segs, p.1 ≤ p.2)
    (hchain : List.Chain' (fun p q : Seg => p.2 < q.1) segs) :
    vetoFlags segs ts = ts.map (fun t => !coveredBy segs t) := by
  induction segs, ts using vetoFlags.induct with
  | case1 segs => simp [vetoFlags]
  | case2 t ts ih =>
    rw [vetoFlags]
    rw [ih (List.Pairwise.sublist (List.sublist_cons_self _ _) hts) hab hchain]
    simp [coveredBy]
  | case3 a b rest t ts hlt ih =>
    rw [vetoFlags, if_pos hlt]
    rw [ih (List.Pairwise.sublist (List.sublist_cons_self _ _) hts) hab hchain]
    have hcov : coveredBy ((a, b) :: rest) t = false := by
      unfold coveredBy
      rw [List.any_eq_false]
      rintro ⟨a', b'⟩ hq
      rcases List.mem_cons.mp hq with h | hq
      · simp only [Prod.mk.injEq] at h
        obtain ⟨rfl, rfl⟩ := h
        simp [not_le.mpr hlt]
      · have hba : b < a' := chain_gap_forall rest a b
          (fun p hp => hab p (List.mem_cons_of_mem _ hp)) hchain (a', b') hq
        have hta : t < a' :=
          lt_trans (lt_of_lt_of_le hlt (hab (a, b) (List.mem_cons_self _ _))) hba
        simp [not_le.mpr hta]
    rw [List.map_cons, hcov]
    simp
  | case4 a b rest t ts hnlt hgt ih =>
    rw [vetoFlags, if_neg hnlt, if_pos hgt]
    have hdrop : ∀ u ∈ t :: ts, coveredBy ((a, b) :: rest) u = coveredBy rest u := by
      intro u hu
      have htu : t ≤ u := by
        rcases List.mem_cons.mp hu with rfl | hu
        · exact le_refl u
        · exact List.rel_of_pairwise_cons hts hu
      unfold coveredBy
      simp only [List.any_cons]
      have hfalse : (decide (a ≤ u) && decide (u ≤ b)) = false := by
        have hbu : b < u := lt_of_lt_of_le hgt htu
        simp [not_le.mpr hbu]
      rw [hfalse]
      simp
    rw [ih hts (fun p hp => hab p (List.mem_cons_of_mem _ hp)) (List.Chain'.tail hchain)]
    refine List.map_congr_left fun u hu => ?_
    rw [hdrop u hu]
  | case5 a b rest t ts hnlt hngt ih =>
    rw [vetoFlags, if_neg hnlt, if_neg hngt]
    rw [ih (List.Pairwise.sublist (List.sublist_cons_self _ _) hts) hab hchain]
    have hcov : coveredBy ((a, b) :: rest) t = true := by
      unfold coveredBy
      simp only [List.any_cons]
      have h1 : a ≤ t := not_lt.mp hnlt
      have h2 : t ≤ b := not_lt.mp hngt
      simp [h1, h2]
    rw [List.map_cons, hcov]
    simp

/-- Selecting with the mask `l.map p` is filtering by `p`. -/
theorem maskFilter_map (l : List Event) (p : Event → Bool) :
    maskFilter l (l.map p) = l.filter p := by
  induction l with
  | nil => rfl
  | cons e l ih =>
    unfold maskFilter at ih ⊢
    cases hp : p e <;> simp [List.filter_cons, hp, ih]

/-- The events of the time-sorted table are exactly those of the input
(insertion sort is a permutation). -/
theorem sortByTime_perm (l : List Event) : (sortByTime l).Perm l :=
  List.perm_insertionSort timeLE l

/-- The time column of the sorted table is ascending. -/
theorem sortByTime_times_sorted (l : List Event) :
    List.Pairwise (fun a b : ℚ => a ≤ b) ((sortByTime l).map Event.time) := by
  rw [List.pairwise_map]
  exact List.sorted_insertionSort timeLE l

/-- Main correctness lemma for `veto`: with a nonempty coalesced
segment list, the result is the coverage partition of the time-sorted
table. -/
theorem veto_partition_eq (table : List Event) (segmentlist : List Seg)
    (h : coalesce segmentlist ≠ []) :
    veto table segmentlist =
      some ((sortByTime table).filter
              (fun e => !coveredBy (coalesce segmentlist) e.time),
            (sortByTime table).filter
              (fun e => coveredBy (coalesce segmentlist) e.time)) := by
  cases hs : coalesce segmentlist with
  | nil => exact absurd hs h
  | cons cs css =>
    obtain ⟨habs, hchain⟩ := coalesce_props segmentlist
    rw [hs] at habs hchain
    have hflags : vetoFlags (cs :: css) ((sortByTime table).map Event.time) =
        ((sortByTime table).map Event.time).map
          (fun t => !coveredBy (cs :: css) t) :=
      vetoFlags_eq (cs :: css) _ (sortByTime_times_sorted table) habs hchain
    have hstep : veto table segmentlist =
        some (maskFilter (sortByTime table)
                (vetoFlags (cs :: css) ((sortByTime table).map Event.time)),
              maskFilter (sortByTime table)
                ((vetoFlags (cs :: css) ((sortByTime table).map Event.time)).map
                  (fun b => !b))) := by
      unfold veto
      rw [hs]
    rw [hstep, hflags, List.map_map]
    have h1 : maskFilter (sortByTime table)
        ((sortByTime table).map ((fun t => !coveredBy (cs :: css) t) ∘ Event.time)) =
        (sortByTime table).filter (fun e => !coveredBy (cs :: css) e.time) :=
      maskFilter_map _ _
    have h2 : maskFilter (sortByTime table)
        (((sortByTime table).map ((fun t => !coveredBy (cs :: css) t) ∘ Event.time)).map
          (fun b => !b)) =
        (sortByTime table).filter (fun e => coveredBy (cs :: css) e.time) := by
      rw [List.map_map]
      have : ((fun b => !b) ∘ (fun t => !coveredBy (cs :: css) t) ∘ Event.time) =
          (fun e : Event => coveredBy (cs :: css) e.time) := by
        funext e
        simp [Function.comp]
      rw [this, maskFilter_map]
    rw [h1, h2]

/-- `veto` returns a value exactly when the coalesced segment list is
nonempty (otherwise the uncaught `IndexError` escapes). -/
theorem veto_isSome_iff (table : List Event) (segs : List Seg) :
    (veto table segs).isSome = true ↔ coalesce segs ≠ [] := by
  unfold veto
  cases hs : coalesce segs with
  | nil => simp
  | cons cs css => simp

/-- Claim C3 as amended: for every event table and every segment list
whose coalesced form is nonempty, `veto` returns the partition of the
time-sorted table into the events not covered by any coalesced segment
(kept) and the events covered by one (removed); with an empty coalesced
segment list (in particular an empty segment list) it raises `IndexError`
instead. -/
theorem veto_characterization (table : List Event) (segmentlist : List Seg)
    (h : coalesce segmentlist ≠ []) :
    veto table segmentlist =
      some ((sortByTime table).filter
              (fun e => !coveredBy (coalesce segmentlist) e.time),
            (sortByTime table).filter
              (fun e => coveredBy (coalesce segmentlist) e.time)) :=
  veto_partition_eq table segmentlist h

/-- Witness for `veto_characterization`: a two-event table against the
single segment `[0, 10]`. -/
theorem veto_characterization_witness :
    veto [⟨1, 0, 1, "x"⟩, ⟨20, 0, 1, "y"⟩] [(0, 10)] =
      some ((sortByTime [⟨1, 0, 1, "x"⟩, ⟨20, 0, 1, "y"⟩]).filter
              (fun e => !coveredBy (coalesce [(0, 10)]) e.time),
            (sortByTime [⟨1, 0, 1, "x"⟩, ⟨20, 0, 1, "y"⟩]).filter
              (fun e => coveredBy (coalesce [(0, 10)]) e.time)) :=
  veto_characterization [⟨1, 0, 1, "x"⟩, ⟨20, 0, 1, "y"⟩] [(0, 10)]
    (by with_unfolding_all decide)

/-- Claim C3, counterexample: with an *empty* segment list, `veto` does
not return a partition at all; `a, b = segmentlist[0]` raises an
uncaught `IndexError` (the claim asserts a `(kept, removed)` pair is
returned for all inputs, including an empty segment list). -/
theorem veto_empty_segmentlist_raises :
    veto [⟨0, 0, 1, "x"⟩] [] = none := by
  with_unfolding_all decide

/-- Claim C8 as amended: `veto` performs no precondition validation and
never rejects an uncoalesced or unsorted segment list; it coalesces the
list itself and produces a partition whenever the coalesced list is
nonempty (and the only failure mode, for any input, is the `IndexError`
on an empty coalesced list). -/
theorem veto_no_precondition_check (table : List Event) (segs : List Seg) :
    (veto table segs).isSome = true ↔ coalesce segs ≠ [] :=
  veto_isSome_iff table segs

/-- Claim C8, counterexample: an unsorted, uncoalesced segment list
(`[(2,3), (0,1)]`) is not rejected: `veto` silently coalesces it and
returns a partition (the event at `t = 1/2` is removed by the segment
`(0, 1)`). -/
theorem veto_uncoalesced_accepted_counterexample :
    veto [⟨(1 : ℚ)/2, 0, 1, "x"⟩] [(2, 3), (0, 1)] =
      some ([], [⟨(1 : ℚ)/2, 0, 1, "x"⟩]) := by
  with_unfolding_all decide

/- ---------------- C9 : veto_all ---------------- -/

/-- In a channel-consistent per-channel table list with distinct keys,
filtering the stacked table by one channel recovers that channel's
table. -/
theorem flatten_filter_channel (auxiliary : List (String × List Event))
    (c : String) (tbl : List Event) (hmem : (c, tbl) ∈ auxiliary)
    (hnodup : (auxiliary.map Prod.fst).Nodup)
    (hchan : ∀ p ∈ auxiliary, ∀ e ∈ p.2, e.channel = p.1) :
    ((auxiliary.map Prod.snd).flatten).filter (fun e => e.channel == c) = tbl := by
  induction auxiliary with
  | nil => cases hmem
  | cons q rest ih =>
    obtain ⟨d, u⟩ := q
    simp only [List.map_cons, List.flatten_cons, List.filter_append]
    rcases List.mem_cons.mp hmem with heq | hmem'
    · obtain ⟨h1', h2'⟩ := Prod.mk.inj heq
      subst h1'
      subst h2'
      have h1 : tbl.filter (fun e => e.channel == c) = tbl := by
        refine List.filter_eq_self.mpr fun e he => ?_
        have hec : e.channel = c := hchan (c, tbl) (List.mem_cons_self _ _) e he
        simp [hec]
      have h2 : ((rest.map Prod.snd).flatten).filter (fun e => e.channel == c) = [] := by
        rw [List.filter_eq_nil_iff]
        intro e he
        obtain ⟨l', hl', hel⟩ := List.mem_flatten.mp he
        obtain ⟨p, hp, rfl⟩ := List.mem_map.mp hl'
        have hech : e.channel = p.1 := hchan p (List.mem_cons_of_mem _ hp) e hel
        have hne : p.1 ≠ c := by
          intro hpc
          exact (List.nodup_cons.mp hnodup).1 (List.mem_map.mpr ⟨p, hp, hpc⟩)
        simp [hech, hne]
      rw [h1, h2, List.append_nil]
    · have hd_ne : d ≠ c := by
        intro hdc
        refine (List.nodup_cons.mp hnodup).1 ?_
        have : c ∈ rest.map Prod.fst := List.mem_map.mpr ⟨(c, tbl), hmem', rfl⟩
        rw [hdc]
        exact this
      have h1 : u.filter (fun e => e.channel == c) = [] := by
        rw [List.filter_eq_nil_iff]
        intro e he
        have hed : e.channel = d := hchan (d, u) (List.mem_cons_self _ _) e he
        simp [hed, hd_ne]
      rw [h1, List.nil_append]
      exact ih hmem' (List.nodup_cons.mp hnodup).2
        (fun p hp => hchan p (List.mem_cons_of_mem _ hp))

/-- Claim C9: whenever `veto_all` returns (i.e. does not propagate the
`IndexError` that the per-channel calls would equally raise), its result
for each channel is - as a multiset of events, hence as a set - the
kept part of an independent `veto` call on that channel's table, for
every channel-consistent partition of the events across channels. -/
theorem veto_all_eq_per_channel (auxiliary : List (String × List Event))
    (segs : List Seg)
    (hnodup : (auxiliary.map Prod.fst).Nodup)
    (hchan : ∀ p ∈ auxiliary, ∀ e ∈ p.2, e.channel = p.1)
    (res : List (String × List Event))
    (hres : veto_all auxiliary segs = some res) :
    ∀ p ∈ auxiliary, ∃ kept removed,
      veto p.2 segs = some (kept, removed) ∧
        ∃ surv, (p.1, surv) ∈ res ∧ surv.Perm kept := by
  unfold veto_all at hres
  obtain ⟨kr, hkr, hmapres⟩ := Option.map_eq_some'.mp hres
  have hco : coalesce segs ≠ [] := by
    refine (veto_isSome_iff ((auxiliary.map Prod.snd).flatten) segs).mp ?_
    rw [hkr]
    rfl
  have hchar := veto_partition_eq ((auxiliary.map Prod.snd).flatten) segs hco
  rw [hkr] at hchar
  have hkr2 := Option.some_inj.mp hchar
  intro p hp
  obtain ⟨c, tbl⟩ := p
  refine ⟨_, _, veto_partition_eq tbl segs hco, ?_⟩
  refine ⟨kr.1.filter (fun e => e.channel == c), ?_, ?_⟩
  · rw [← hmapres]
    exact List.mem_map_of_mem _ hp
  · rw [hkr2]
    have hb : ((sortByTime ((auxiliary.map Prod.snd).flatten)).filter
          (fun e => !coveredBy (coalesce segs) e.time)).filter
            (fun e => e.channel == c) |>.Perm
        ((((auxiliary.map Prod.snd).flatten).filter
          (fun e => !coveredBy (coalesce segs) e.time)).filter
            (fun e => e.channel == c)) :=
      ((sortByTime_perm _).filter _).filter _
    have hcomm : ((((auxiliary.map Prod.snd).flatten).filter
          (fun e => !coveredBy (coalesce segs) e.time)).filter
            (fun e => e.channel == c)) =
        ((((auxiliary.map Prod.snd).flatten).filter
          (fun e => e.channel == c)).filter
            (fun e => !coveredBy (coalesce segs) e.time)) :=
      List.filter_comm _ _ _
    have hflt := flatten_filter_channel auxiliary c tbl hp hnodup hchan
    have hc : ((((auxiliary.map Prod.snd).flatten).filter
          (fun e => e.channel == c)).filter
            (fun e => !coveredBy (coalesce segs) e.time)) =
        tbl.filter (fun e => !coveredBy (coalesce segs) e.time) := by
      rw [hflt]
    have hd : (tbl.filter (fun e => !coveredBy (coalesce segs) e.time)).Perm
        ((sortByTime tbl).filter (fun e => !coveredBy (coalesce segs) e.time)) :=
      ((sortByTime_perm tbl).filter _).symm
    exact ((hb.trans (hcomm ▸ (hc ▸ List.Perm.refl _))).trans hd)

/-- Witness for `veto_all_eq_per_channel`: two channels, one segment;
channel `x`'s event is vetoed, channel `y`'s survives. -/
theorem veto_all_eq_per_channel_witness :
    ∃ kept removed,
      veto (("x", [(⟨1, 0, 1, "x"⟩ : Event)]) : String × List Event).2 [(0, 10)] =
          some (kept, removed) ∧
        ∃ surv,
          ((("x", [(⟨1, 0, 1, "x"⟩ : Event)]) : String × List Event).1, surv) ∈
            [("x", ([] : List Event)), ("y", [⟨20, 0, 1, "y"⟩])] ∧
          surv.Perm kept :=
  veto_all_eq_per_channel
    [("x", [⟨1, 0, 1, "x"⟩]), ("y", [⟨20, 0, 1, "y"⟩])] [(0, 10)]
    (by with_unfolding_all decide) (by with_unfolding_all decide)
    [("x", []), ("y", [⟨20, 0, 1, "y"⟩])] (by with_unfolding_all decide)
    ("x", [⟨1, 0, 1, "x"⟩]) (by with_unfolding_all decide)

/- ---------------- significance helpers ---------------- -/

/-- For at least one term, the partial exponential sum at `0` is `1`
(only the `k = 0` term survives). -/
theorem poissonSum_at_zero (n : ℕ) (hn : n ≠ 0) : poissonSum n 0 = 1 := by
  unfold poissonSum
  rw [Finset.sum_eq_single_of_mem 0 (Finset.mem_range.mpr (Nat.pos_of_ne_zero hn))]
  · simp
  · intro k _ hk
    simp [zero_pow hk]

/-- `gammainc(n, 0) = 0` for every `n` (cephes zero-integration-limit
convention; for `n ≥ 1` this is the exact mathematical value). -/
theorem gammainc_at_zero (n : ℕ) : gammainc n 0 = 0 := by
  unfold gammainc
  by_cases hn : n = 0
  · simp [hn]
  · rw [if_neg hn, poissonSum_at_zero n hn]
    simp

/-- `significance(n, 0)` raises for every `n`: the tail probability is
exactly `0`, the asymptotic fallback is taken, and `log10(0)` raises
`ValueError`. -/
theorem significance_at_zero (n : ℕ) : significance n 0 = none := by
  unfold significance
  rw [gammainc_at_zero n]
  rw [if_pos rfl]
  unfold log10
  rw [if_neg (lt_irrefl 0)]
  rfl

/-- For `mu > 0`, `gammainc n mu` coincides with the closed form
`1 - exp(-mu) * poissonSum n mu` for all `n` (at `n = 0` the empty sum
makes the right-hand side `1`, matching scipy's `gammainc(0, mu) = 1`). -/
theorem gammainc_eq_of_pos (n : ℕ) (mu : ℝ) (h : 0 < mu) :
    gammainc n mu = 1 - Real.exp (-mu) * poissonSum n mu := by
  unfold gammainc
  by_cases hn : n = 0
  · subst hn
    rw [if_pos rfl, if_pos h]
    unfold poissonSum
    simp
  · rw [if_neg hn]

/-- The partial exponential sum is strictly below `exp mu` for positive
`mu`. -/
theorem poissonSum_lt_exp (n : ℕ) (mu : ℝ) (h : 0 < mu) :
    poissonSum n mu < Real.exp mu := by
  have hstep : poissonSum n mu < poissonSum (n + 1) mu := by
    unfold poissonSum
    rw [Finset.sum_range_succ]
    have : 0 < mu ^ n / (Nat.factorial n : ℝ) :=
      div_pos (pow_pos h n) (by exact_mod_cast Nat.factorial_pos n)
    linarith
  have hle : poissonSum (n + 1) mu ≤ Real.exp mu := by
    unfold poissonSum
    exact Real.sum_le_exp_of_nonneg h.le (n + 1)
  exact lt_of_lt_of_le hstep hle

/-- The tail probability is strictly positive for positive `mu`. -/
theorem gammainc_pos (n : ℕ) (mu : ℝ) (h : 0 < mu) : 0 < gammainc n mu := by
  rw [gammainc_eq_of_pos n mu h]
  have h1 : Real.exp (-mu) * poissonSum n mu < Real.exp (-mu) * Real.exp mu :=
    mul_lt_mul_of_pos_left (poissonSum_lt_exp n mu h) (Real.exp_pos _)
  rw [← Real.exp_add] at h1
  simp only [neg_add_cancel, Real.exp_zero] at h1
  linarith

/-- For positive `mu`, `significance` takes the `-log10(g)` branch and
returns a value. -/
theorem significance_some (n : ℕ) (mu : ℝ) (h : 0 < mu) :
    significance n mu =
      some (-(Real.log (gammainc n mu) / Real.log 10)) := by
  have hg : 0 < gammainc n mu := gammainc_pos n mu h
  unfold significance
  rw [if_neg hg.ne']
  unfold log10
  rw [if_pos hg]
  rfl

/- ---------------- C6 : significance(0, mu) ---------------- -/

/-- Claim C6, counterexample: `significance(0, 0)` does not return `0`:
there is no `n = 0` bypass in the code; `gammainc(0, 0)` is `0` (cephes)
so the asymptotic fallback evaluates `log10(0)` and raises `ValueError`
(with modern scipy's NaN at `(0, 0)` the result would be NaN - under
neither convention is it `0`). -/
theorem significance_zero_zero_raises : significance 0 0 = none :=
  significance_at_zero 0

/-- Claim C6 as amended: for every `mu > 0`, `significance 0 mu`
returns exactly `0` - not through a bypass but because
`gammainc(0, mu) = 1` and `-log10(1) = 0`. -/
theorem significance_zero_of_pos (mu : ℝ) (h : 0 < mu) :
    significance 0 mu = some 0 := by
  rw [significance_some 0 mu h]
  have hg : gammainc 0 mu = 1 := by
    unfold gammainc
    rw [if_pos rfl, if_pos h]
  rw [hg, Real.log_one]
  norm_num

/-- Witness for `significance_zero_of_pos` at `mu = 1`. -/
theorem significance_zero_of_pos_witness : significance 0 1 = some 0 :=
  significance_zero_of_pos 1 one_pos

/- ---------------- C7 : monotonicity of significance ---------------- -/

/-- The tail probability decreases when one more coincidence is
required. -/
theorem gammainc_succ_le (n : ℕ) (mu : ℝ) (h : 0 < mu) :
    gammainc (n + 1) mu ≤ gammainc n mu := by
  rw [gammainc_eq_of_pos n mu h, gammainc_eq_of_pos (n + 1) mu h]
  have hsum : poissonSum n mu ≤ poissonSum (n + 1) mu := by
    unfold poissonSum
    rw [Finset.sum_range_succ]
    have : 0 ≤ mu ^ n / (Nat.factorial n : ℝ) :=
      div_nonneg (pow_nonneg h.le n) (by positivity)
    linarith
  have := mul_le_mul_of_nonneg_left hsum (Real.exp_pos (-mu)).le
  linarith

/-- Derivative of the partial exponential sum: one fewer term. -/
theorem hasDerivAt_poissonSum (m : ℕ) (x : ℝ) :
    HasDerivAt (fun y => poissonSum (m + 1) y) (poissonSum m x) x := by
  have hterm : ∀ k ∈ Finset.range (m + 1),
      HasDerivAt (fun y : ℝ => y ^ k / (Nat.factorial k : ℝ))
        ((k : ℝ) * x ^ (k - 1) / (Nat.factorial k : ℝ)) x := by
    intro k _
    exact (hasDerivAt_pow k x).div_const _
  have hsum := HasDerivAt.sum hterm
  have hval : (∑ k ∈ Finset.range (m + 1),
      (k : ℝ) * x ^ (k - 1) / (Nat.factorial k : ℝ)) = poissonSum m x := by
    rw [Finset.sum_range_succ']
    have hz : ((0 : ℕ) : ℝ) * x ^ (0 - 1) / (Nat.factorial 0 : ℝ) = 0 := by simp
    rw [hz, add_zero]
    unfold poissonSum
    refine Finset.sum_congr rfl fun k _ => ?_
    rw [Nat.factorial_succ]
    have hfk : (Nat.factorial k : ℝ) ≠ 0 := by positivity
    have hk1 : ((k + 1 : ℕ) : ℝ) ≠ 0 := by positivity
    push_cast
    field_simp
    ring
  rw [hval] at hsum
  exact hsum

/-- Derivative of `exp(-x) * poissonSum (m+1) x`:
`-(exp(-x) * x^m / m!)`, which is nonpositive for `x ≥ 0`. -/
theorem hasDerivAt_gammaincAux (m : ℕ) (x : ℝ) :
    HasDerivAt (fun y => Real.exp (-y) * poissonSum (m + 1) y)
      (-(Real.exp (-x) * (x ^ m / (Nat.factorial m : ℝ)))) x := by
  have h1 : HasDerivAt (fun y : ℝ => Real.exp (-y)) (Real.exp (-x) * (-1)) x :=
    (hasDerivAt_neg' x).exp
  have h2 := hasDerivAt_poissonSum m x
  have hmul := h1.mul h2
  have hrw : poissonSum (m + 1) x = poissonSum m x + x ^ m / (Nat.factorial m : ℝ) := by
    unfold poissonSum
    rw [Finset.sum_range_succ]
  convert hmul using 1
  rw [hrw]
  ring

/-- `x ↦ exp(-x) * poissonSum (m+1) x` is antitone on `[0, ∞)`. -/
theorem gammaincAux_antitoneOn (m : ℕ) :
    AntitoneOn (fun y => Real.exp (-y) * poissonSum (m + 1) y) (Set.Ici 0) := by
  refine antitoneOn_of_deriv_nonpos (convex_Ici 0) ?_ ?_ ?_
  · intro x _
    exact (hasDerivAt_gammaincAux m x).differentiableAt.continuousAt.continuousWithinAt
  · intro x _
    exact (hasDerivAt_gammaincAux m x).differentiableAt.differentiableWithinAt
  · intro x hx
    rw [interior_Ici] at hx
    rw [(hasDerivAt_gammaincAux m x).deriv]
    have hxpos : (0 : ℝ) < x := hx
    have : 0 ≤ Real.exp (-x) * (x ^ m / (Nat.factorial m : ℝ)) := by positivity
    linarith

/-- The tail probability grows with the expected count (for `n ≥ 1`). -/
theorem gammainc_mono_mu (m : ℕ) (mu mu' : ℝ) (h0 : 0 < mu) (hle : mu ≤ mu') :
    gammainc (m + 1) mu ≤ gammainc (m + 1) mu' := by
  have h0' : 0 < mu' := lt_of_lt_of_le h0 hle
  rw [gammainc_eq_of_pos (m + 1) mu h0, gammainc_eq_of_pos (m + 1) mu' h0']
  have h1 : Real.exp (-mu') * poissonSum (m + 1) mu' ≤
      Real.exp (-mu) * poissonSum (m + 1) mu :=
    gammaincAux_antitoneOn m (Set.mem_Ici.mpr h0.le) (Set.mem_Ici.mpr h0'.le) hle
  linarith

/-- Claim C7, counterexample: the claimed inequality
`significance(n+1, mu) ≥ significance(n, mu)` fails at `mu = 0` (which
the claim includes via `mu ≥ 0`): neither side returns a value there -
both raise `ValueError` from `log10(0)` after the tail probability
evaluates to exactly `0`. -/
theorem significance_monotone_counterexample :
    ¬ ∃ x y : ℝ, significance 1 0 = some x ∧ significance 0 0 = some y ∧ y ≤ x := by
  rintro ⟨x, y, hx, -, -⟩
  rw [significance_at_zero 1] at hx
  cases hx

/-- Claim C7 as amended: for every `mu > 0`, `significance` is
monotonically non-decreasing in `n`, and for every `n ≥ 1` it is
non-increasing in `mu` on `0 < mu ≤ mu'` (at `mu = 0` the function
raises instead of returning a value). -/
theorem significance_monotone :
    (∀ (n : ℕ) (mu : ℝ), 0 < mu →
        ∃ x y : ℝ, significance (n + 1) mu = some x ∧
          significance n mu = some y ∧ y ≤ x) ∧
      ∀ (m : ℕ) (mu mu' : ℝ), 0 < mu → mu ≤ mu' →
        ∃ x y : ℝ, significance (m + 1) mu = some x ∧
          significance (m + 1) mu' = some y ∧ y ≤ x := by
  have hL : (0 : ℝ) < Real.log 10 := Real.log_pos (by norm_num)
  constructor
  · intro n mu hmu
    refine ⟨-(Real.log (gammainc (n + 1) mu) / Real.log 10),
      -(Real.log (gammainc n mu) / Real.log 10),
      significance_some (n + 1) mu hmu, significance_some n mu hmu, ?_⟩
    have hlog : Real.log (gammainc (n + 1) mu) ≤ Real.log (gammainc n mu) :=
      Real.log_le_log (gammainc_pos (n + 1) mu hmu) (gammainc_succ_le n mu hmu)
    have := (div_le_div_iff_of_pos_right hL).mpr hlog
    linarith
  · intro m mu mu' hmu hle
    have hmu' : 0 < mu' := lt_of_lt_of_le hmu hle
    refine ⟨-(Real.log (gammainc (m + 1) mu) / Real.log 10),
      -(Real.log (gammainc (m + 1) mu') / Real.log 10),
      significance_some (m + 1) mu hmu, significance_some (m + 1) mu' hmu', ?_⟩
    have hlog : Real.log (gammainc (m + 1) mu) ≤ Real.log (gammainc (m + 1) mu') :=
      Real.log_le_log (gammainc_pos (m + 1) mu hmu) (gammainc_mono_mu m mu mu' hmu hle)
    have := (div_le_div_iff_of_pos_right hL).mpr hlog
    linarith

/-- Witness for `significance_monotone` at `n = 1`, `mu = 1`, `mu' = 2`. -/
theorem significance_monotone_witness :
    (∃ x y : ℝ, significance 2 1 = some x ∧ significance 1 1 = some y ∧ y ≤ x) ∧
      ∃ x y : ℝ, significance 1 1 = some x ∧ significance 1 2 = some y ∧ y ≤ x :=
  ⟨significance_monotone.1 1 1 one_pos,
    significance_monotone.2 0 1 2 one_pos (by norm_num)⟩

/- ---------------- C5 : coinc_significance with livetime = 0 ---------------- -/

/-- Claim C5, counterexample: `a = [0]`, `b = [0]`, `dt = 2`,
`livetime = 0` produces one coincidence (`n = 1`); the
`ZeroDivisionError` guard sets `prob = 0`, hence `mu = 0`, and then
`significance(1, 0)` raises `ValueError` from `log10(0)` - an exception
escapes even though the claim says none is raised when `n > 0`. -/
theorem coinc_significance_zero_livetime_raises :
    coinc_significance [0] [0] 2 0 = none := by
  have hfc : find_coincidences [0] [0] 2 = [0] := by with_unfolding_all decide
  simp only [coinc_significance, hfc]
  norm_num [significance_at_zero]

/-- Claim C5 as amended: for every `a`, every ascending-sorted `b` (the
documented precondition of the underlying bisection search, under which
the `find_coincidences` model is exact) and every `dt`, with
`livetime = 0` the division guard does set the per-event probability to
`0` (hence `mu = 0`), and the call returns normally exactly when there
are no coincidences (`n = 0`, early return of `(coincs, 0)`); whenever
coincidences exist (`n > 0`), `significance(n, 0)` raises `ValueError`
from `log10(0)` and the exception propagates out of
`coinc_significance`. -/
theorem coinc_significance_zero_livetime (a b : List ℚ) (dt : ℚ)
    (hb : b.Sorted (· ≤ ·)) :
    coinc_significance a b dt 0 =
      if (find_coincidences a b dt).length = 0
      then some (find_coincidences a b dt, 0)
      else none := by
  by_cases h : (find_coincidences a b dt).length = 0
  · simp only [coinc_significance, h, if_true]
  · simp only [coinc_significance, h]
    norm_num [significance_at_zero]

/-- Witness for `coinc_significance_zero_livetime` at `a = [0]`,
sorted `b = [5]`, `dt = 2`: no coincidence, so the zero-livetime call
returns `([], 0)` normally. -/
theorem coinc_significance_zero_livetime_witness :
    coinc_significance [0] [5] 2 0 =
      (if (find_coincidences [0] [5] 2).length = 0
       then some (find_coincidences [0] [5] 2, 0)
       else none) :=
  coinc_significance_zero_livetime [0] [5] 2 (by with_unfolding_all decide)

/- ---------------- C4 : find_max_significance sentinel ---------------- -/

/-- Claim C4 as amended: on every input on which no grid cell and
channel produce a score (empty window list, empty threshold list, or no
coincidences at all between the primary and any auxiliary channel),
`find_max_significance` returns - without raising - the sentinel winner
built by `HvetoWinner(name='unknown', significance=-1)`: its
significance is `-1` and its name is the placeholder string
`'unknown'`, not `None`, together with the all-zero per-channel score
map. -/
theorem find_max_significance_sentinel (primary : List Event)
    (auxiliary : List (String × List Event)) (channel : String)
    (snrs windows : List ℚ) (livetime : ℚ)
    (h : windows = [] ∨ snrs = [] ∨
      ∀ w s c, find_all_coincidences
        (primary ++ (auxiliary.map Prod.snd).flatten) channel snrs windows w s c = 0) :
    find_max_significance primary auxiliary channel snrs windows livetime =
      some (HvetoWinner.init (some "unknown") (some (-1)) none none none none 0 none,
        fun _ => 0) := by
  rcases h with h | h | h
  · subst h
    simp [find_max_significance, cellList]
  · subst h
    have hcells : cellList windows [] = [] := by
      unfold cellList
      generalize List.insertionSort geQ windows = ws
      induction ws with
      | nil => rfl
      | cons w ws ih =>
        rw [List.flatMap_cons, ih]
        rfl
    simp [find_max_significance, hcells]
  · unfold find_max_significance
    have hchans : ∀ cell : ℚ × ℚ,
        ((auxiliary.map Prod.fst).filter
          (fun c => find_all_coincidences
            (primary ++ (auxiliary.map Prod.snd).flatten) channel snrs windows
              cell.1 cell.2 c != 0)) = [] := by
      intro cell
      rw [List.filter_eq_nil_iff]
      intro c _
      rw [h cell.1 cell.2 c]
      simp
    generalize cellList windows snrs = cells
    induction cells with
    | nil => rfl
    | cons cell cells ih =>
      rw [List.foldl_cons, hchans cell]
      exact ih

/-- Witness for `find_max_significance_sentinel` on the empty
configuration (no windows, no thresholds, no tables). -/
theorem find_max_significance_sentinel_witness :
    find_max_significance [] [] "p" [] [] 1 =
      some (HvetoWinner.init (some "unknown") (some (-1)) none none none none 0 none,
        fun _ => 0) :=
  find_max_significance_sentinel [] [] "p" [] [] 1 (Or.inl rfl)

/-- Claim C4, counterexample: on an input with no scores the returned
sentinel winner's channel name is the string `'unknown'`, not `None` as
the claim states. -/
theorem find_max_sentinel_name_counterexample :
    ((find_max_significance [] [] "p" [] [] 1).map (fun r => r.1.name)) =
        some (some "unknown") ∧
      ((find_max_significance [] [] "p" [] [] 1).map (fun r => r.1.name)) ≠
        some (none : Option String) := by
  constructor
  · rfl
  · intro hcontra
    rw [show ((find_max_significance [] [] "p" [] [] 1).map (fun r => r.1.name)) =
        some (some "unknown") from rfl] at hcontra
    simp at hcontra

end Hveto
